import Mathlib

/-!
Verification of `scripts/regenerate-all-fixtures.py`.

The script regenerates golden AST fixtures: it runs `pnpm build`, discovers
`sorted(Path("syntax-tests/fixtures").rglob("*.td"))`, and for each file
launches a fresh node process that parses the file and writes
`JSON.stringify(ast, null, 2) + '\n'` to the sibling path obtained by
`td_file.with_suffix('.ast.json')`.  It counts successes and failures and
exits 1 when the build fails or any file fails, 0 otherwise.

The development embeds the script shallowly:
* paths are directory components plus a file name (lists of characters);
* the fixtures tree is a finite association list from paths to contents;
* the external collaborators (the build, the node interpreter's launch,
  the parser, and the success of `writeFileSync`) are oracles in `World`;
* `runMain` mirrors the control flow of `main`, including the fact that
  `subprocess.run(["node", ...])` is not wrapped in any `try`/`except`,
  so a failure to launch the interpreter raises an uncaught exception
  (modelled by `RunResult.crashed`, CPython then exits with status 1).
-/

/-- Character list for the test-definition extension `.td`. -/
def sTd : List Char := ['.', 't', 'd']

/-- Character list for the artifact extension `.ast.json` passed to
`with_suffix`. -/
def astJsonChars : List Char := ['.', 'a', 's', 't', '.', 'j', 's', 'o', 'n']

/-- A filesystem path: directory components plus the final file name.
The script resolves paths to absolute form before deriving the artifact
path; the model works with the resolved canonical form throughout. -/
structure FPath where
  dir : List (List Char)
  name : List Char
deriving DecidableEq

/-- The string form of a path: directory components each followed by a
separator, then the file name.  Python compares `Path` values by this
textual form, which `sorted` uses. -/
def pathChars (p : FPath) : List Char :=
  (p.dir.map (fun d => d ++ ['/'])).flatten ++ p.name

/-- Code points of the string form of a path, used for ordering. -/
def pathKey (p : FPath) : List Nat :=
  (pathChars p).map Char.toNat

/-- Lexicographic comparison of code-point sequences. -/
def lexLe : List Nat → List Nat → Bool
  | [], _ => true
  | _ :: _, [] => false
  | a :: as, b :: bs => if a < b then true else if b < a then false else lexLe as bs

/-- The path order used by `sorted(...)` in the script: lexicographic on
the textual form of the path. -/
def pLe (p q : FPath) : Prop := lexLe (pathKey p) (pathKey q) = true

instance : DecidableRel pLe := fun p q =>
  inferInstanceAs (Decidable (lexLe (pathKey p) (pathKey q) = true))

instance : IsTotal FPath pLe := ⟨by
  have H : ∀ (a b : List Nat), lexLe a b = true ∨ lexLe b a = true := by
    intro a
    induction a with
    | nil => intro b; left; rfl
    | cons x xs ih =>
      intro b
      cases b with
      | nil => right; rfl
      | cons y ys =>
        by_cases h1 : x < y
        · left; simp [lexLe, h1]
        · by_cases h2 : y < x
          · right; simp [lexLe, h2]
          · rcases ih ys with h | h
            · left; simp [lexLe, h1, h2, h]
            · right; simp [lexLe, h1, h2, h]
  intro p q
  exact H (pathKey p) (pathKey q)⟩

instance : IsTrans FPath pLe := ⟨by
  have H : ∀ (a b c : List Nat),
      lexLe a b = true → lexLe b c = true → lexLe a c = true := by
    intro a
    induction a with
    | nil => intro b c _ _; rfl
    | cons x xs ih =>
      intro b c hab hbc
      cases b with
      | nil => simp [lexLe] at hab
      | cons y ys =>
        cases c with
        | nil => simp [lexLe] at hbc
        | cons z zs =>
          by_cases h1 : x < y
          · by_cases h3 : y < z
            · have hxz : x < z := by omega
              simp [lexLe, hxz]
            · by_cases h4 : z < y
              · simp [lexLe, h3, h4] at hbc
              · have hyz : y = z := by omega
                subst hyz
                simp [lexLe, h1]
          · by_cases h2 : y < x
            · simp [lexLe, h1, h2] at hab
            · have hxy : x = y := by omega
              subst hxy
              simp only [lexLe, h1, h2, if_false] at hab
              by_cases h3 : x < z
              · simp [lexLe, h3]
              · by_cases h4 : z < x
                · simp [lexLe, h3, h4] at hbc
                · have hxz : x = z := by omega
                  subst hxz
                  simp only [lexLe, h3, h4, if_false] at hbc
                  simp [lexLe, h3, h4, ih ys zs hab hbc]
  intro p q r hpq hqr
  exact H (pathKey p) (pathKey q) (pathKey r) hpq hqr⟩

/-- Whether a file name matches the `rglob("*.td")` pattern: the name ends
with `.td` (fnmatch-style `*` also matches the empty stem, so a file named
exactly `.td` matches). -/
def matchesTd (p : FPath) : Bool :=
  decide (3 ≤ p.name.length) && decide (p.name.drop (p.name.length - 3) = sTd)

/-- Index of the last `.` in a name, if any (Python's `name.rfind('.')`
restricted to a found result). -/
def rfindDot : List Char → Option Nat
  | [] => none
  | c :: cs =>
    match rfindDot cs with
    | some i => some (i + 1)
    | none => if c = '.' then some 0 else none

/-- Python's `PurePath.suffix` on a file name: the part from the last dot,
except when that dot is the first or last character of the name. -/
def pySuffix (n : List Char) : List Char :=
  match rfindDot n with
  | none => []
  | some i => if 0 < i ∧ i < n.length - 1 then n.drop i else []

/-- Python's `PurePath.with_suffix` on a file name: replace the old suffix
when there is one, append the new suffix otherwise. -/
def withSuffix (n suf : List Char) : List Char :=
  if pySuffix n = [] then n ++ suf
  else n.take (n.length - (pySuffix n).length) ++ suf

/-- The derived artifact path: `td_file.with_suffix('.ast.json')`.  The
directory is untouched, so the artifact is a sibling of the input. -/
def derive (p : FPath) : FPath :=
  ⟨p.dir, withSuffix p.name astJsonChars⟩

/-- Left brace character, code point 123. -/
def lbrace : Char := Char.ofNat 123

/-- Right brace character, code point 125. -/
def rbrace : Char := Char.ofNat 125

mutual

/-- Modelled from the spec: the AST returned by the external parser is an
opaque JSON-serializable value ("this tool takes no dependency on the
AST's internal shape beyond serializable"); we model it as a JSON value. -/
inductive Json : Type where
  | null : Json
  | jbool : Bool → Json
  | jnum : Int → Json
  | jstr : List Char → Json
  | jarr : JsonArr → Json
  | jobj : JsonObj → Json

/-- A list of JSON array elements. -/
inductive JsonArr : Type where
  | nil : JsonArr
  | cons : Json → JsonArr → JsonArr

/-- A list of JSON object fields, in the object's own property order. -/
inductive JsonObj : Type where
  | nil : JsonObj
  | cons : List Char → Json → JsonObj → JsonObj

end

/-- One decimal digit character. -/
def digitChar (d : Nat) : Char := Char.ofNat (48 + d % 10)

/-- Decimal digits of a natural number. -/
def natChars (n : Nat) : List Char :=
  if _h : n < 10 then [digitChar n]
  else natChars (n / 10) ++ [digitChar (n % 10)]
decreasing_by exact Nat.div_lt_self (by omega) (by omega)

/-- Decimal rendering of an integer. -/
def intChars (n : Int) : List Char :=
  (if n < 0 then ['-'] else []) ++ natChars n.natAbs

/-- Modelled from the spec: the JSON string escaping performed by the
external `JSON.stringify` on quotes, backslashes and newlines. -/
def escChar (c : Char) : List Char :=
  if c = '"' ∨ c = '\\' then ['\\', c]
  else if c = '\n' then ['\\', 'n']
  else [c]

/-- Escaped form of a string body. -/
def escapeChars (s : List Char) : List Char :=
  (s.map escChar).flatten

/-- Indentation: `n` spaces. -/
def indentChars (n : Nat) : List Char := List.replicate n ' '

mutual

/-- Modelled from the spec: `JSON.stringify(value, null, 2)`, the external
Node builtin used by the per-file script.  Fields are emitted in the
object's own property order; composite values are pretty-printed with
two-space indentation, one element per line, and the closing bracket on
its own line at the enclosing indentation. -/
def jsonStr : Nat → Json → List Char
  | _, Json.null => ['n', 'u', 'l', 'l']
  | _, Json.jbool true => ['t', 'r', 'u', 'e']
  | _, Json.jbool false => ['f', 'a', 'l', 's', 'e']
  | _, Json.jnum n => intChars n
  | _, Json.jstr s => '"' :: (escapeChars s ++ ['"'])
  | _, Json.jarr JsonArr.nil => ['[', ']']
  | ind, Json.jarr (JsonArr.cons h t) =>
    '[' :: '\n' :: (arrItems (ind + 2) h t ++ '\n' :: (indentChars ind ++ [']']))
  | _, Json.jobj JsonObj.nil => [lbrace, rbrace]
  | ind, Json.jobj (JsonObj.cons k v t) =>
    lbrace :: '\n' :: (objItems (ind + 2) k v t ++ '\n' :: (indentChars ind ++ [rbrace]))
termination_by _ j => sizeOf j
decreasing_by
  all_goals simp_wf
  all_goals omega

/-- Array elements, one per line, comma separated. -/
def arrItems : Nat → Json → JsonArr → List Char
  | ind, x, JsonArr.nil => indentChars ind ++ jsonStr ind x
  | ind, x, JsonArr.cons y t =>
    indentChars ind ++ (jsonStr ind x ++ ',' :: '\n' :: arrItems ind y t)
termination_by _ x t => 1 + sizeOf x + sizeOf t
decreasing_by
  all_goals simp_wf
  all_goals omega

/-- Object fields, one per line, comma separated, `"key": value`. -/
def objItems : Nat → List Char → Json → JsonObj → List Char
  | ind, k, v, JsonObj.nil =>
    indentChars ind ++ ('"' :: (escapeChars k ++ '"' :: ':' :: ' ' :: jsonStr ind v))
  | ind, k, v, JsonObj.cons k2 v2 t =>
    indentChars ind ++
      ('"' :: (escapeChars k ++ '"' :: ':' :: ' ' ::
        (jsonStr ind v ++ ',' :: '\n' :: objItems ind k2 v2 t)))
termination_by _ _ v t => 1 + sizeOf v + sizeOf t
decreasing_by
  all_goals simp_wf
  all_goals omega

end

/-- The bytes the node script writes on success:
`JSON.stringify(ast, null, 2) + '\n'`. -/
def astContent (ast : Json) : List Char := jsonStr 0 ast ++ ['\n']

/-- The fixtures subtree: a finite association list from (resolved) file
paths to file contents.  Real filesystems have distinct paths, so lemmas
that need it take a `Nodup` hypothesis on the keys. -/
def FS : Type := List (FPath × List Char)

instance : DecidableEq FS := inferInstanceAs (DecidableEq (List (FPath × List Char)))

/-- Content of a file, if present. -/
def fsGet : FS → FPath → Option (List Char)
  | [], _ => none
  | (q, c) :: rest, p => if p = q then some c else fsGet rest p

/-- Write a file: overwrite the existing entry or create a new one
(`writeFileSync` semantics, modelled as an atomic replace). -/
def fsSet : FS → FPath → List Char → FS
  | [], p, c => [(p, c)]
  | (q, d) :: rest, p, c =>
    if p = q then (q, c) :: rest else (q, d) :: fsSet rest p c

/-- The paths present in the tree. -/
def fsKeys (fs : FS) : List FPath := fs.map Prod.fst

/-- Fixture discovery, `sorted(fixtures_dir.rglob("*.td"))`: every file
whose name matches `*.td`, in lexicographic path order.  (`sorted` is a
stable sort; on the duplicate-free key list of a filesystem any sort
producing a `pLe`-sorted permutation yields the same sequence.) -/
def discover (fs : FS) : List FPath :=
  List.insertionSort pLe ((fsKeys fs).filter matchesTd)

/-- The external collaborators of one run:
* `buildOk`: whether `pnpm build` exits 0;
* `launchOk`: whether `subprocess.run(["node", ...])` succeeds in launching
  the interpreter for this input file (when false, Python raises an
  uncaught `FileNotFoundError`/`OSError`);
* `parse`: the compiler's parser, `parse(sourceText) -> AST` or an error
  carrying a message;
* `writeOk`: whether `writeFileSync` to the given artifact path succeeds. -/
structure World where
  buildOk : Bool
  launchOk : FPath → Bool
  parse : List Char → Except (List Char) Json
  writeOk : FPath → Bool

/-- Per-file result as reported by the script: a success line, or the
`Failed to parse` line. -/
inductive Outcome : Type where
  | success : Outcome
  | failure : Outcome
deriving DecidableEq

/-- Aggregator state built up over the loop of `main`: the evolving
filesystem, the per-file outcomes in processing order, the log of write
events `(path, bytes)` performed so far, and the two counters. -/
structure RunState where
  fs : FS
  outcomes : List (FPath × Outcome)
  writes : List (FPath × List Char)
  successCount : Nat
  failCount : Nat

/-- One `subprocess.run(["node", "--input-type=module"], input=node_script)`
invocation.  `none` models the launch itself raising (not caught anywhere
in the script).  Otherwise the embedded node script runs: it reads the
input (an uncaught read error exits nonzero), parses, and inside the
`try` writes `JSON.stringify(ast, null, 2) + '\n'` then exits 0; any
error caught by the `catch` exits 1.  The result is the exit code, the
filesystem afterwards, and the write performed, if any. -/
def runNode (w : World) (fs : FS) (td astP : FPath) :
    Option (Nat × FS × Option (FPath × List Char)) :=
  if w.launchOk td then
    some (match fsGet fs td with
      | none => (1, fs, none)
      | some src =>
        match w.parse src with
        | Except.error _ => (1, fs, none)
        | Except.ok ast =>
          if w.writeOk astP then
            (0, fsSet fs astP (astContent ast), some (astP, astContent ast))
          else (1, fs, none))
  else none

/-- One iteration of the loop in `main`: derive the artifact path, run the
node process, and record the outcome by the check `returncode == 0`.
`none` propagates an uncaught launch exception. -/
def processFile (w : World) (st : RunState) (td : FPath) : Option RunState :=
  match runNode w st.fs td (derive td) with
  | none => none
  | some (rc, fs', wr) =>
    if rc = 0 then
      some { fs := fs', outcomes := st.outcomes ++ [(td, Outcome.success)],
             writes := st.writes ++ wr.toList,
             successCount := st.successCount + 1, failCount := st.failCount }
    else
      some { fs := fs', outcomes := st.outcomes ++ [(td, Outcome.failure)],
             writes := st.writes ++ wr.toList,
             successCount := st.successCount, failCount := st.failCount + 1 }

/-- The whole `for td_file in td_files:` loop.  `Except.error st` models
the run dying with an uncaught exception while in state `st`. -/
def processFiles (w : World) : List FPath → RunState → Except RunState RunState
  | [], st => Except.ok st
  | td :: rest, st =>
    match processFile w st td with
    | none => Except.error st
    | some st' => processFiles w rest st'

/-- State at the top of the loop. -/
def initState (fs : FS) : RunState :=
  { fs := fs, outcomes := [], writes := [], successCount := 0, failCount := 0 }

/-- How a run can end. -/
inductive RunResult : Type where
  | buildFailed : RunResult
  | crashed : RunState → RunResult
  | completed : RunState → RunResult

/-- The embedding of `main`: build, discover, loop.  A build failure is
`sys.exit(1)` before discovery; an uncaught exception in the loop crashes
the run; otherwise the loop completes and the summary is printed. -/
def runMain (w : World) (fs : FS) : RunResult :=
  if w.buildOk then
    match processFiles w (discover fs) (initState fs) with
    | Except.error st => RunResult.crashed st
    | Except.ok st => RunResult.completed st
  else RunResult.buildFailed

/-- The process exit status: 1 for `sys.exit(1)` after a build failure,
1 for a CPython unhandled-exception termination, and for a completed run
1 when `fail_count > 0`, otherwise 0. -/
def exitCode : RunResult → Nat
  | RunResult.buildFailed => 1
  | RunResult.crashed _ => 1
  | RunResult.completed st => if st.failCount > 0 then 1 else 0

/-- The outcomes recorded by a run (empty when the build failed). -/
def runOutcomes : RunResult → List (FPath × Outcome)
  | RunResult.buildFailed => []
  | RunResult.crashed st => st.outcomes
  | RunResult.completed st => st.outcomes

/-- The outcome a given input file will produce, as a function of the
world and of a reference filesystem holding the file's content. -/
def fileOutcome (w : World) (fs0 : FS) (p : FPath) : Outcome :=
  match fsGet fs0 p with
  | none => Outcome.failure
  | some src =>
    match w.parse src with
    | Except.error _ => Outcome.failure
    | Except.ok _ =>
      if w.writeOk (derive p) then Outcome.success else Outcome.failure

/-- The write a given input file will produce, if any. -/
def fileWrite (w : World) (fs0 : FS) (p : FPath) : Option (FPath × List Char) :=
  match fsGet fs0 p with
  | none => none
  | some src =>
    match w.parse src with
    | Except.error _ => none
    | Except.ok ast =>
      if w.writeOk (derive p) then some (derive p, astContent ast) else none

/-- Apply an optional write to a filesystem. -/
def applyW (fs : FS) : Option (FPath × List Char) → FS
  | none => fs
  | some (q, c) => fsSet fs q c

/-- Number of files in the list that will succeed. -/
def numSucc (w : World) (fs0 : FS) : List FPath → Nat
  | [] => 0
  | p :: r =>
    (if fileOutcome w fs0 p = Outcome.success then 1 else 0) + numSucc w fs0 r

/-- Number of files in the list that will fail. -/
def numFail (w : World) (fs0 : FS) : List FPath → Nat
  | [] => 0
  | p :: r =>
    (if fileOutcome w fs0 p = Outcome.failure then 1 else 0) + numFail w fs0 r

/-- Agreement of two filesystems on every `*.td` path: the run only ever
writes `*.ast.json` artifacts, so the inputs it reads keep their original
contents. -/
def agreesTd (fs fs0 : FS) : Prop :=
  ∀ p, matchesTd p = true → fsGet fs p = fsGet fs0 p

/-- Concrete file content the nominal parser accepts. -/
def cSrcOk : List Char := ['o', 'k']

/-- Concrete file content the nominal parser rejects. -/
def cSrcBad : List Char := ['b', 'a', 'd']

/-- Concrete parser error message. -/
def cMsg : List Char := ['e', 'r', 'r']

/-- A nominal world: build succeeds, every launch and write succeeds, and
the parser fails exactly on the content `bad`. -/
def wNom : World where
  buildOk := true
  launchOk := fun _ => true
  parse := fun src => if src = cSrcBad then Except.error cMsg else Except.ok Json.null
  writeOk := fun _ => true

/-- A world whose node interpreter can never be launched (for example the
`node` binary is missing from `PATH`). -/
def wCrash : World where
  buildOk := true
  launchOk := fun _ => false
  parse := fun _ => Except.ok Json.null
  writeOk := fun _ => true

/-- Concrete input file `a.td` at the fixtures root. -/
def pA : FPath := ⟨[], ['a', '.', 't', 'd']⟩

/-- Concrete input file `b.td` at the fixtures root. -/
def pB : FPath := ⟨[], ['b', '.', 't', 'd']⟩

/-- Concrete input file `c.td` at the fixtures root. -/
def pC : FPath := ⟨[], ['c', '.', 't', 'd']⟩

/-- Concrete input file `d.td` at the fixtures root. -/
def pD : FPath := ⟨[], ['d', '.', 't', 'd']⟩

/-- Concrete input file `e.td` at the fixtures root. -/
def pE : FPath := ⟨[], ['e', '.', 't', 'd']⟩

/-- A file named exactly `.td`: `rglob("*.td")` matches it, but Python
regards its name as all stem and no suffix. -/
def pDotTd : FPath := ⟨[], ['.', 't', 'd']⟩

/-- One-file tree used by witnesses. -/
def fsA : FS := [(pA, cSrcOk)]

/-- Two-file tree whose second file has malformed content. -/
def fsAB : FS := [(pA, cSrcOk), (pB, cSrcBad)]

/-- One-file tree used by the C1 counterexample. -/
def fsC : FS := [(pC, cSrcOk)]

/-- One-file tree used by the C7 counterexample. -/
def fsD : FS := [(pD, cSrcOk)]

/-- One-file tree used by the C5 counterexample. -/
def fsE : FS := [(pE, cSrcOk)]

/-- One-file tree containing only the degenerate name `.td`. -/
def fsDot : FS := [(pDotTd, cSrcOk)]

/-- A world whose interpreter launches for every file except `b.td`. -/
def wHalf : World where
  buildOk := true
  launchOk := fun p => decide (p ≠ pB)
  parse := fun _ => Except.ok Json.null
  writeOk := fun _ => true

/-- Two-file tree with well-formed contents, used with `wHalf`. -/
def fsAB2 : FS := [(pA, cSrcOk), (pB, cSrcOk)]

/-- A name matches `*.td` exactly when it ends with the three characters
`.td`. -/
theorem matchesTd_iff (p : FPath) : matchesTd p = true ↔ ∃ x, p.name = x ++ sTd := by
  simp only [matchesTd, Bool.and_eq_true, decide_eq_true_eq]
  constructor
  · rintro ⟨hlen, hdrop⟩
    exact ⟨p.name.take (p.name.length - 3), by rw [← hdrop]; exact (List.take_append_drop _ _).symm⟩
  · rintro ⟨x, hx⟩
    have hl : (x ++ sTd).length = x.length + 3 := by simp [sTd]
    rw [hx]
    refine ⟨by omega, ?_⟩
    have h2 : (x ++ sTd).length - 3 = x.length := by omega
    rw [h2, List.drop_left]

/-- The tail of any appended artifact extension. -/
theorem drop_astJson (x : List Char) :
    (x ++ astJsonChars).drop ((x ++ astJsonChars).length - 3) = ['s', 'o', 'n'] := by
  have h1 : x ++ astJsonChars = (x ++ ['.', 'a', 's', 't', '.', 'j']) ++ ['s', 'o', 'n'] := by
    simp [astJsonChars]
  rw [h1]
  have h2 : ((x ++ ['.', 'a', 's', 't', '.', 'j']) ++ ['s', 'o', 'n']).length - 3 =
      (x ++ ['.', 'a', 's', 't', '.', 'j']).length := by
    simp
  rw [h2, List.drop_left]

/-- `with_suffix` always produces a name ending in `.ast.json`. -/
theorem withSuffix_shape (n : List Char) :
    ∃ x, withSuffix n astJsonChars = x ++ astJsonChars := by
  unfold withSuffix
  split
  · exact ⟨n, rfl⟩
  · exact ⟨_, rfl⟩

/-- A derived artifact path never matches `*.td`, so regeneration never
writes to (nor discovers) a test-definition file. -/
theorem matchesTd_derive (p : FPath) : matchesTd (derive p) = false := by
  obtain ⟨x, hx⟩ := withSuffix_shape p.name
  have hn : (derive p).name = x ++ astJsonChars := hx
  have hdrop := drop_astJson x
  simp only [matchesTd, hn, hdrop]
  simp [sTd]

/-- The rightmost dot of a name ending in `.td` is the one introduced by
the extension. -/
theorem rfindDot_append_td (t : List Char) : rfindDot (t ++ sTd) = some t.length := by
  induction t with
  | nil => rfl
  | cons c cs ih => simp [rfindDot, ih]

/-- Python's suffix of a name `X.td` with a nonempty stem `X` is `.td`. -/
theorem pySuffix_append_td (t : List Char) (ht : t ≠ []) :
    pySuffix (t ++ sTd) = sTd := by
  unfold pySuffix
  rw [rfindDot_append_td]
  have hlen : (t ++ sTd).length = t.length + 3 := by simp [sTd]
  have h1 : 0 < t.length := List.length_pos.mpr ht
  have h2 : t.length < (t ++ sTd).length - 1 := by omega
  show (if 0 < t.length ∧ t.length < (t ++ sTd).length - 1 then
    List.drop t.length (t ++ sTd) else []) = sTd
  rw [if_pos ⟨h1, h2⟩, List.drop_left]

/-- `with_suffix('.ast.json')` on a name `X.td` with nonempty stem gives
`X.ast.json`. -/
theorem withSuffix_append_td (t : List Char) (ht : t ≠ []) :
    withSuffix (t ++ sTd) astJsonChars = t ++ astJsonChars := by
  unfold withSuffix
  rw [pySuffix_append_td t ht]
  have hne : ¬(sTd = ([] : List Char)) := by simp [sTd]
  rw [if_neg hne]
  have hlen : (t ++ sTd).length = t.length + 3 := by simp [sTd]
  have hstd : sTd.length = 3 := rfl
  have h3 : (t ++ sTd).length - sTd.length = t.length := by omega
  rw [h3, List.take_left]

/-- Claim C8 (amended): for every discovered file whose name has a
nonempty stem (name longer than the bare extension `.td`), the derived
output path is obtained purely by replacing the trailing `.td` with
`.ast.json`, in the same directory: `X.td` maps to the sibling
`X.ast.json`.  (For the one degenerate discoverable name `.td`, Python's
`with_suffix` appends instead; see the counterexample.) -/
theorem regen_derive_replaces_extension (p : FPath)
    (h : matchesTd p = true) (hlen : 3 < p.name.length) :
    derive p = ⟨p.dir, p.name.take (p.name.length - 3) ++ astJsonChars⟩ := by
  obtain ⟨x, hx⟩ := (matchesTd_iff p).mp h
  have hl : (x ++ sTd).length = x.length + 3 := by simp [sTd]
  have hxne : x ≠ [] := by
    intro h0
    rw [h0, List.nil_append] at hx
    have : p.name.length = 3 := by rw [hx]; rfl
    omega
  simp only [derive, hx, withSuffix_append_td x hxne]
  have h2 : (x ++ sTd).length - 3 = x.length := by omega
  rw [h2, List.take_left]

/-- Witness for C8: `x.td` in the fixtures root is discovered, and its
derived artifact is the sibling `x.ast.json`. -/
theorem regen_derive_replaces_extension_witness :
    matchesTd pA = true ∧ 3 < pA.name.length ∧
      derive pA = ⟨pA.dir, pA.name.take (pA.name.length - 3) ++ astJsonChars⟩ :=
  ⟨by decide, by decide, regen_derive_replaces_extension pA (by decide) (by decide)⟩

/-- Counterexample for C8: the file named exactly `.td` is discovered by
`rglob("*.td")`, but `with_suffix('.ast.json')` appends rather than
replaces (Python treats `.td` as all stem, no suffix), producing
`.td.ast.json` instead of `.ast.json`. -/
theorem regen_derive_dot_td_counterexample :
    pDotTd ∈ discover fsDot ∧
      derive pDotTd =
        ⟨pDotTd.dir, pDotTd.name ++ astJsonChars⟩ ∧
      derive pDotTd ≠
        ⟨pDotTd.dir, pDotTd.name.take (pDotTd.name.length - 3) ++ astJsonChars⟩ := by
  refine ⟨?_, by decide, by decide⟩
  decide

/-- Membership in discovery: exactly the tree's `*.td` files. -/
theorem mem_discover (fs : FS) (p : FPath) :
    p ∈ discover fs ↔ p ∈ fsKeys fs ∧ matchesTd p = true := by
  unfold discover
  rw [(List.perm_insertionSort pLe _).mem_iff, List.mem_filter]

/-- Every discovered path matches `*.td`. -/
theorem matchesTd_of_mem_discover {fs : FS} {p : FPath}
    (h : p ∈ discover fs) : matchesTd p = true :=
  ((mem_discover fs p).mp h).2

/-- Discovery output is sorted in lexicographic path order. -/
theorem discover_sorted (fs : FS) : List.Sorted pLe (discover fs) :=
  List.sorted_insertionSort pLe _

/-- Discovery of a duplicate-free tree lists each file once. -/
theorem discover_nodup {fs : FS} (h : (fsKeys fs).Nodup) :
    (discover fs).Nodup := by
  unfold discover
  rw [(List.perm_insertionSort pLe _).nodup_iff]
  exact h.filter _

/-- Updating a path and reading it back. -/
theorem fsGet_fsSet_self (fs : FS) (q : FPath) (c : List Char) :
    fsGet (fsSet fs q c) q = some c := by
  induction fs with
  | nil => simp [fsSet, fsGet]
  | cons e rest ih =>
    obtain ⟨r, d⟩ := e
    by_cases h : q = r
    · simp [fsSet, fsGet, h]
    · simp [fsSet, fsGet, h, ih]

/-- Updating one path leaves every other path's content unchanged. -/
theorem fsGet_fsSet_ne (fs : FS) {p q : FPath} (c : List Char) (h : p ≠ q) :
    fsGet (fsSet fs q c) p = fsGet fs p := by
  induction fs with
  | nil => simp [fsSet, fsGet, h]
  | cons e rest ih =>
    obtain ⟨r, d⟩ := e
    by_cases h2 : q = r
    · subst h2
      simp [fsSet, fsGet, h]
    · by_cases h3 : p = r
      · simp [fsSet, fsGet, h2, h3]
      · simp [fsSet, fsGet, h2, h3, ih]

/-- Presence of a file survives any later write. -/
theorem fsGet_fsSet_isSome (fs : FS) (q r : FPath) (c : List Char)
    (h : (fsGet fs r).isSome = true) :
    (fsGet (fsSet fs q c) r).isSome = true := by
  by_cases hrq : r = q
  · subst hrq
    rw [fsGet_fsSet_self]
    rfl
  · rw [fsGet_fsSet_ne fs c hrq]
    exact h

/-- Writing to a non-`*.td` path does not change which `*.td` files the
tree contains, nor their relative order. -/
theorem fsKeys_filter_fsSet (fs : FS) (q : FPath) (c : List Char)
    (hq : matchesTd q = false) :
    (fsKeys (fsSet fs q c)).filter matchesTd = (fsKeys fs).filter matchesTd := by
  induction fs with
  | nil => simp [fsSet, fsKeys, hq]
  | cons e rest ih =>
    obtain ⟨r, d⟩ := e
    by_cases h2 : q = r
    · subst h2
      simp [fsSet, fsKeys]
    · simp only [fsSet, if_neg h2, fsKeys, List.map_cons, List.filter_cons]
      simp only [fsKeys] at ih
      rw [ih]

/-- Whenever a file's process launches, the iteration records exactly one
outcome for it, appended to the log. -/
theorem processFile_shape (w : World) (st : RunState) (td : FPath)
    {st' : RunState} (h : processFile w st td = some st') :
    ∃ o, st'.outcomes = st.outcomes ++ [(td, o)] := by
  unfold processFile runNode at h
  by_cases hl : w.launchOk td
  · rcases hsrc : fsGet st.fs td with _ | src
    · simp [hl, hsrc] at h
      exact ⟨Outcome.failure, by rw [← h]⟩
    · rcases hp : w.parse src with e | ast
      · simp [hl, hsrc, hp] at h
        exact ⟨Outcome.failure, by rw [← h]⟩
      · by_cases hw : w.writeOk (derive td)
        · simp [hl, hsrc, hp, hw] at h
          exact ⟨Outcome.success, by rw [← h]⟩
        · simp [hl, hsrc, hp, hw] at h
          exact ⟨Outcome.failure, by rw [← h]⟩
  · simp [hl] at h

/-- A launch failure at a file makes the loop iteration raise. -/
theorem processFile_launch_fail (w : World) (st : RunState) (td : FPath)
    (hl : w.launchOk td = false) : processFile w st td = none := by
  unfold processFile runNode
  rw [hl]
  rfl

/-- Full characterization of one loop iteration when the launch succeeds,
relative to a reference tree `fs0` that agrees with the current one on
all `*.td` files. -/
theorem processFile_eq (w : World) (fs0 : FS) (st : RunState) (td : FPath)
    (hl : w.launchOk td = true) (ht : matchesTd td = true)
    (ha : agreesTd st.fs fs0) :
    processFile w st td = some
      { fs := applyW st.fs (fileWrite w fs0 td),
        outcomes := st.outcomes ++ [(td, fileOutcome w fs0 td)],
        writes := st.writes ++ (fileWrite w fs0 td).toList,
        successCount := st.successCount +
          (if fileOutcome w fs0 td = Outcome.success then 1 else 0),
        failCount := st.failCount +
          (if fileOutcome w fs0 td = Outcome.failure then 1 else 0) } := by
  have hget : fsGet st.fs td = fsGet fs0 td := ha td ht
  unfold processFile runNode
  rw [hl, if_pos rfl, hget]
  rcases hsrc : fsGet fs0 td with _ | src
  · simp [fileOutcome, fileWrite, hsrc, applyW]
  · rcases hp : w.parse src with e | ast
    · simp [fileOutcome, fileWrite, hsrc, hp, applyW]
    · by_cases hw : w.writeOk (derive td)
      · simp [fileOutcome, fileWrite, hsrc, hp, hw, applyW]
      · simp [fileOutcome, fileWrite, hsrc, hp, hw, applyW]

/-- The target of any write produced by a file is its derived artifact
path. -/
theorem fileWrite_target (w : World) (fs0 : FS) (p : FPath) {q : FPath}
    {c : List Char} (hw : fileWrite w fs0 p = some (q, c)) : q = derive p := by
  unfold fileWrite at hw
  rcases hsrc : fsGet fs0 p with _ | src
  · simp [hsrc] at hw
  · rcases hp : w.parse src with e | ast
    · simp [hsrc, hp] at hw
    · by_cases hwr : w.writeOk (derive p)
      · simp [hsrc, hp, hwr] at hw
        exact hw.1.symm
      · simp [hsrc, hp, hwr] at hw

/-- The write target of one iteration never matches `*.td`, so agreement
with the reference tree on `*.td` files is preserved. -/
theorem agreesTd_applyW (fs fs0 : FS) (w : World) (p : FPath)
    (ha : agreesTd fs fs0) :
    agreesTd (applyW fs (fileWrite w fs0 p)) fs0 := by
  rcases hw : fileWrite w fs0 p with _ | ⟨q, c⟩
  · exact ha
  · have hq : q = derive p := fileWrite_target w fs0 p hw
    intro r hr
    show fsGet (fsSet fs q c) r = fsGet fs0 r
    have hrq : r ≠ q := by
      intro h0
      rw [h0, hq, matchesTd_derive p] at hr
      exact Bool.noConfusion hr
    rw [fsGet_fsSet_ne fs c hrq]
    exact ha r hr

/-- Characterization of the whole loop on a list of `*.td` files whose
processes all launch: the loop completes, records the outcomes in order,
logs exactly the successful writes, counts them, folds the writes into
the filesystem, and keeps all `*.td` contents intact. -/
theorem processFiles_ok (w : World) (fs0 : FS) :
    ∀ (files : List FPath) (st : RunState),
    (∀ p ∈ files, w.launchOk p = true) →
    (∀ p ∈ files, matchesTd p = true) →
    agreesTd st.fs fs0 →
    ∃ st', processFiles w files st = Except.ok st' ∧
      st'.outcomes = st.outcomes ++ files.map (fun p => (p, fileOutcome w fs0 p)) ∧
      st'.writes = st.writes ++ files.filterMap (fileWrite w fs0) ∧
      st'.successCount = st.successCount + numSucc w fs0 files ∧
      st'.failCount = st.failCount + numFail w fs0 files ∧
      st'.fs = files.foldl (fun fs p => applyW fs (fileWrite w fs0 p)) st.fs ∧
      agreesTd st'.fs fs0 := by
  intro files
  induction files with
  | nil =>
    intro st _ _ ha
    exact ⟨st, rfl, by simp, by simp, by simp [numSucc], by simp [numFail],
      rfl, ha⟩
  | cons td rest ih =>
    intro st hl ht ha
    have hltd : w.launchOk td = true := hl td (List.mem_cons_self _ _)
    have httd : matchesTd td = true := ht td (List.mem_cons_self _ _)
    have hpf := processFile_eq w fs0 st td hltd httd ha
    have ha1 : agreesTd (applyW st.fs (fileWrite w fs0 td)) fs0 :=
      agreesTd_applyW st.fs fs0 w td ha
    obtain ⟨st', hrun, ho, hw2, hs, hf, hfs, ha'⟩ :=
      ih { fs := applyW st.fs (fileWrite w fs0 td),
           outcomes := st.outcomes ++ [(td, fileOutcome w fs0 td)],
           writes := st.writes ++ (fileWrite w fs0 td).toList,
           successCount := st.successCount +
             (if fileOutcome w fs0 td = Outcome.success then 1 else 0),
           failCount := st.failCount +
             (if fileOutcome w fs0 td = Outcome.failure then 1 else 0) }
        (fun p hp => hl p (List.mem_cons_of_mem _ hp))
        (fun p hp => ht p (List.mem_cons_of_mem _ hp)) ha1
    refine ⟨st', ?_, ?_, ?_, ?_, ?_, ?_, ha'⟩
    · simp only [processFiles, hpf]
      exact hrun
    · rw [ho]
      simp [List.append_assoc]
    · rw [hw2]
      rcases hfw : fileWrite w fs0 td with _ | pc
      · simp [List.filterMap_cons, hfw, Option.toList]
      · simp [List.filterMap_cons, hfw, Option.toList, List.append_assoc]
    · rw [hs]
      simp [numSucc]
      omega
    · rw [hf]
      simp [numFail]
      omega
    · rw [hfs]
      simp [List.foldl_cons]
    

/-- Success and failure counts over a file list partition its length. -/
theorem numSucc_add_numFail (w : World) (fs0 : FS) (files : List FPath) :
    numSucc w fs0 files + numFail w fs0 files = files.length := by
  induction files with
  | nil => rfl
  | cons p r ih =>
    simp only [numSucc, numFail, List.length_cons]
    rcases h : fileOutcome w fs0 p with _ | _
    · simp only [h]
      simp
      omega
    · simp only [h]
      simp
      omega

/-- The failure count is positive exactly when some file fails. -/
theorem numFail_pos_iff (w : World) (fs0 : FS) (files : List FPath) :
    0 < numFail w fs0 files ↔
      ∃ p ∈ files, fileOutcome w fs0 p = Outcome.failure := by
  induction files with
  | nil => simp [numFail]
  | cons p r ih =>
    simp only [numFail, List.mem_cons]
    rcases h : fileOutcome w fs0 p with _ | _
    · simp [h, ih]
    · simp only [h]
      constructor
      · intro _
        exact ⟨p, Or.inl rfl, h⟩
      · intro _
        simp

/-- The failure count is zero exactly when every file succeeds. -/
theorem numFail_eq_zero_iff (w : World) (fs0 : FS) (files : List FPath) :
    numFail w fs0 files = 0 ↔
      ∀ p ∈ files, fileOutcome w fs0 p = Outcome.success := by
  induction files with
  | nil => simp [numFail]
  | cons p r ih =>
    simp only [numFail, List.mem_cons]
    rcases h : fileOutcome w fs0 p with _ | _
    · simp [h, ih, forall_eq_or_imp]
    · simp [h, forall_eq_or_imp]

/-- In a completed loop, outcomes are recorded during processing exactly
in list order. -/
theorem processFiles_ok_order (w : World) :
    ∀ (files : List FPath) (st st' : RunState),
    processFiles w files st = Except.ok st' →
    st'.outcomes.map Prod.fst = st.outcomes.map Prod.fst ++ files := by
  intro files
  induction files with
  | nil =>
    intro st st' h
    cases h
    simp
  | cons td rest ih =>
    intro st st' h
    rcases hpf : processFile w st td with _ | st1
    · simp only [processFiles, hpf] at h
      exact Except.noConfusion h
    · simp only [processFiles, hpf] at h
      obtain ⟨o, ho⟩ := processFile_shape w st td hpf
      rw [ih st1 st' h, ho]
      simp

/-- A crashed loop processed an initial segment of its file list, in
order, before the uncaught exception. -/
theorem processFiles_error_order (w : World) :
    ∀ (files : List FPath) (st st' : RunState),
    processFiles w files st = Except.error st' →
    ∃ pre rest2, files = pre ++ rest2 ∧
      st'.outcomes.map Prod.fst = st.outcomes.map Prod.fst ++ pre := by
  intro files
  induction files with
  | nil =>
    intro st st' h
    simp only [processFiles] at h
    exact Except.noConfusion h
  | cons td rest ih =>
    intro st st' h
    rcases hpf : processFile w st td with _ | st1
    · simp only [processFiles, hpf] at h
      cases h
      exact ⟨[], td :: rest, rfl, by simp⟩
    · simp only [processFiles, hpf] at h
      obtain ⟨o, ho⟩ := processFile_shape w st td hpf
      obtain ⟨pre, rest2, hsplit, hmap⟩ := ih st1 st' h
      refine ⟨td :: pre, rest2, by rw [hsplit]; rfl, ?_⟩
      rw [hmap, ho]
      simp

/-- Splitting the loop across an append of file lists. -/
theorem processFiles_append (w : World) :
    ∀ (l1 l2 : List FPath) (st : RunState),
    processFiles w (l1 ++ l2) st =
      match processFiles w l1 st with
      | Except.ok st1 => processFiles w l2 st1
      | Except.error st1 => Except.error st1 := by
  intro l1
  induction l1 with
  | nil =>
    intro l2 st
    rfl
  | cons td rest ih =>
    intro l2 st
    show processFiles w (td :: (rest ++ l2)) st = _
    rcases hpf : processFile w st td with _ | st1
    · simp only [processFiles, hpf]
    · simp only [processFiles, hpf]
      exact ih l2 st1

/-- A failed build aborts before discovery. -/
theorem runMain_buildFailed {w : World} (fs : FS) (hb : w.buildOk = false) :
    runMain w fs = RunResult.buildFailed := by
  unfold runMain
  rw [hb]
  rfl

/-- A run whose build succeeds and whose per-file processes all launch
completes, with the summary fully characterized by `fileOutcome` and
`fileWrite` over the discovery list. -/
theorem runMain_completed (w : World) (fs : FS) (hb : w.buildOk = true)
    (hl : ∀ p ∈ discover fs, w.launchOk p = true) :
    ∃ st, runMain w fs = RunResult.completed st ∧
      st.outcomes = (discover fs).map (fun p => (p, fileOutcome w fs p)) ∧
      st.writes = (discover fs).filterMap (fileWrite w fs) ∧
      st.successCount = numSucc w fs (discover fs) ∧
      st.failCount = numFail w fs (discover fs) ∧
      st.fs = (discover fs).foldl (fun fs2 p => applyW fs2 (fileWrite w fs p)) fs ∧
      agreesTd st.fs fs := by
  obtain ⟨st', hrun, ho, hw2, hs, hf, hfs, ha'⟩ :=
    processFiles_ok w fs (discover fs) (initState fs) hl
      (fun p hp => matchesTd_of_mem_discover hp)
      (fun p _ => rfl)
  refine ⟨st', ?_, ?_, ?_, ?_, ?_, ?_, ha'⟩
  · simp only [runMain, hb, if_true, hrun]
  · simpa [initState] using ho
  · simpa [initState] using hw2
  · simpa [initState] using hs
  · simpa [initState] using hf
  · simpa [initState] using hfs

/-- Digit characters are never the newline character. -/
theorem digitChar_ne_nl (d : Nat) : digitChar d ≠ '\n' := by
  unfold digitChar
  obtain ⟨m, hm, he⟩ : ∃ m, m < 10 ∧ d % 10 = m :=
    ⟨d % 10, Nat.mod_lt _ (by omega), rfl⟩
  rw [he]
  interval_cases m <;> decide

/-- A rendered natural number ends in a digit. -/
theorem natChars_last (n : Nat) : ∃ cs d, natChars n = cs ++ [digitChar d] := by
  unfold natChars
  split
  · exact ⟨[], n, rfl⟩
  · exact ⟨natChars (n / 10), n % 10, rfl⟩

/-- A rendered integer ends in a digit. -/
theorem intChars_last (n : Int) : ∃ cs d, intChars n = cs ++ [digitChar d] := by
  obtain ⟨cs, d, h⟩ := natChars_last n.natAbs
  refine ⟨(if n < 0 then ['-'] else []) ++ cs, d, ?_⟩
  unfold intChars
  rw [h, List.append_assoc]

/-- The serialized form of any AST value never ends with a newline: every
case closes with a bracket, quote, letter or digit. -/
theorem jsonStr_last (ind : Nat) (j : Json) :
    ∃ cs c, jsonStr ind j = cs ++ [c] ∧ c ≠ '\n' := by
  cases j with
  | null => exact ⟨['n', 'u', 'l'], 'l', by simp [jsonStr], by decide⟩
  | jbool b =>
    cases b with
    | true => exact ⟨['t', 'r', 'u'], 'e', by simp [jsonStr], by decide⟩
    | false => exact ⟨['f', 'a', 'l', 's'], 'e', by simp [jsonStr], by decide⟩
  | jnum n =>
    obtain ⟨cs, d, h⟩ := intChars_last n
    exact ⟨cs, digitChar d, by simp [jsonStr, h], digitChar_ne_nl d⟩
  | jstr s =>
    exact ⟨'"' :: escapeChars s, '"', by simp [jsonStr], by decide⟩
  | jarr a =>
    cases a with
    | nil => exact ⟨['['], ']', by simp [jsonStr], by decide⟩
    | cons h t =>
      refine ⟨'[' :: '\n' :: (arrItems (ind + 2) h t ++ '\n' :: indentChars ind),
        ']', ?_, by decide⟩
      simp [jsonStr]
  | jobj o =>
    cases o with
    | nil => exact ⟨[lbrace], rbrace, by simp [jsonStr], by decide⟩
    | cons k v t =>
      refine ⟨lbrace :: '\n' :: (objItems (ind + 2) k v t ++ '\n' :: indentChars ind),
        rbrace, ?_, by decide⟩
      simp [jsonStr]

/-- The bytes written for an AST end with exactly one trailing newline:
the final character is a newline and the one before it is not. -/
theorem astContent_exactly_one_nl (ast : Json) :
    ∃ cs c, astContent ast = cs ++ [c, '\n'] ∧ c ≠ '\n' := by
  obtain ⟨cs, c, h, hc⟩ := jsonStr_last 0 ast
  refine ⟨cs, c, ?_, hc⟩
  unfold astContent
  rw [h]
  simp

/-- Serialization is pretty-printed, not minified: any nonempty object
serializes with explicit line breaks. -/
theorem jsonStr_obj_has_newline (ind : Nat) (k : List Char) (v : Json) (t : JsonObj) :
    '\n' ∈ jsonStr ind (Json.jobj (JsonObj.cons k v t)) := by
  simp [jsonStr]

/-- Claim C3: discovery enumerates exactly the files matching the
test-definition extension (at any depth: every tree entry is considered),
in lexicographic path order, each once for a duplicate-free tree; every
run records outcomes in exactly that order: a completed run's outcome
sequence is the discovery sequence, and even a crashed run's outcomes
form an initial segment of it in order.  Discovery is a pure function of
the tree, so repeated runs over an unchanged tree process files in an
identical sequence. -/
theorem regen_discovery_order (fs : FS) :
    List.Sorted pLe (discover fs) ∧
    (∀ p, p ∈ discover fs ↔ p ∈ fsKeys fs ∧ matchesTd p = true) ∧
    ((fsKeys fs).Nodup → (discover fs).Nodup) ∧
    (∀ (w : World) (st : RunState), runMain w fs = RunResult.completed st →
      st.outcomes.map Prod.fst = discover fs) ∧
    (∀ (w : World) (st : RunState), runMain w fs = RunResult.crashed st →
      ∃ pre rest, discover fs = pre ++ rest ∧ st.outcomes.map Prod.fst = pre) := by
  refine ⟨discover_sorted fs, mem_discover fs, discover_nodup, ?_, ?_⟩
  · intro w st h
    unfold runMain at h
    by_cases hb : w.buildOk
    · rw [if_pos hb] at h
      rcases hrun : processFiles w (discover fs) (initState fs) with st1 | st1
      · simp only [hrun] at h
        exact RunResult.noConfusion h
      · simp only [hrun] at h
        cases h
        simpa [initState] using processFiles_ok_order w (discover fs) (initState fs) _ hrun
    · rw [if_neg hb] at h
      exact RunResult.noConfusion h
  · intro w st h
    unfold runMain at h
    by_cases hb : w.buildOk
    · rw [if_pos hb] at h
      rcases hrun : processFiles w (discover fs) (initState fs) with st1 | st1
      · simp only [hrun] at h
        cases h
        obtain ⟨pre, rest, hsplit, hmap⟩ :=
          processFiles_error_order w (discover fs) (initState fs) _ hrun
        exact ⟨pre, rest, hsplit, by simpa [initState] using hmap⟩
      · simp only [hrun] at h
        exact RunResult.noConfusion h
    · rw [if_neg hb] at h
      exact RunResult.noConfusion h

/-- Witness for C3 on a concrete one-file tree: duplicate-free keys give
a duplicate-free discovery list. -/
theorem regen_discovery_order_witness :
    (fsKeys fsA).Nodup ∧ (discover fsA).Nodup ∧ List.Sorted pLe (discover fsA) :=
  ⟨by decide, (regen_discovery_order fsA).2.2.1 (by decide),
    (regen_discovery_order fsA).1⟩

/-- Claim C1 (amended): if the build fails, the run exits 1 with no file
processed.  If the build succeeds and every per-file interpreter launch
succeeds, the run completes and exits 1 exactly when some discovered file
produced a Failure outcome, and 0 exactly when every discovered file
produced a Success outcome.  (If a launch itself fails, the script's
uncaught exception also terminates the process with exit status 1 even
though the build succeeded and no Failure outcome was recorded; see the
counterexample.) -/
theorem regen_exit_code (w : World) (fs : FS)
    (hl : ∀ p ∈ discover fs, w.launchOk p = true) :
    (w.buildOk = false →
      runMain w fs = RunResult.buildFailed ∧ exitCode (runMain w fs) = 1 ∧
        runOutcomes (runMain w fs) = []) ∧
    (w.buildOk = true →
      ∃ st, runMain w fs = RunResult.completed st ∧
        (exitCode (runMain w fs) = 1 ↔
          ∃ p, (p, Outcome.failure) ∈ st.outcomes) ∧
        (exitCode (runMain w fs) = 0 ↔
          ∀ po ∈ st.outcomes, po.2 = Outcome.success)) := by
  constructor
  · intro hb
    rw [runMain_buildFailed fs hb]
    exact ⟨rfl, rfl, rfl⟩
  · intro hb
    obtain ⟨st, hrun, ho, _, _, hf, _, _⟩ := runMain_completed w fs hb hl
    have hiff : (0 < numFail w fs (discover fs)) ↔
        ∃ p, (p, Outcome.failure) ∈ st.outcomes := by
      rw [numFail_pos_iff, ho]
      constructor
      · rintro ⟨p, hpm, hpo⟩
        exact ⟨p, List.mem_map.mpr ⟨p, hpm, by rw [hpo]⟩⟩
      · rintro ⟨p, hpm⟩
        obtain ⟨q, hq, he⟩ := List.mem_map.mp hpm
        rw [Prod.mk.injEq] at he
        obtain ⟨rfl, hfo⟩ := he
        exact ⟨q, hq, hfo⟩
    have hiff0 : (numFail w fs (discover fs) = 0) ↔
        ∀ po ∈ st.outcomes, po.2 = Outcome.success := by
      rw [numFail_eq_zero_iff, ho]
      constructor
      · intro hall po hpo
        obtain ⟨q, hq, he⟩ := List.mem_map.mp hpo
        rw [← he]
        exact hall q hq
      · intro hall p hp
        exact hall (p, fileOutcome w fs p) (List.mem_map_of_mem _ hp)
    refine ⟨st, hrun, ?_, ?_⟩
    · rw [hrun]
      simp only [exitCode, hf]
      by_cases hnp : numFail w fs (discover fs) > 0
      · rw [if_pos hnp]
        exact iff_of_true rfl (hiff.mp hnp)
      · rw [if_neg hnp]
        exact iff_of_false (by decide) (fun hex => hnp (hiff.mpr hex))
    · rw [hrun]
      simp only [exitCode, hf]
      by_cases hnp : numFail w fs (discover fs) > 0
      · rw [if_pos hnp]
        refine iff_of_false (by decide) (fun hall => ?_)
        have h0 : numFail w fs (discover fs) = 0 := hiff0.mpr hall
        omega
      · rw [if_neg hnp]
        exact iff_of_true rfl (hiff0.mp (by omega))

/-- Witness for C1 (amended) on a concrete all-success run: build
succeeds, the single file parses, exit code 0. -/
theorem regen_exit_code_witness :
    (∀ p ∈ discover fsA, wNom.launchOk p = true) ∧
    (∃ st, runMain wNom fsA = RunResult.completed st ∧
      (exitCode (runMain wNom fsA) = 1 ↔
        ∃ p, (p, Outcome.failure) ∈ st.outcomes) ∧
      (exitCode (runMain wNom fsA) = 0 ↔
        ∀ po ∈ st.outcomes, po.2 = Outcome.success)) :=
  ⟨by decide, (regen_exit_code wNom fsA (by decide)).2 rfl⟩

/-- Counterexample to C1 as stated: build succeeds, the one discovered
file's interpreter launch fails, so the run dies with an uncaught
exception: the exit status is 1 although the build succeeded and no file
produced a Failure outcome, refuting the claimed equivalence. -/
theorem regen_exit_code_counterexample :
    exitCode (runMain wCrash fsC) = 1 ∧ wCrash.buildOk = true ∧
      runOutcomes (runMain wCrash fsC) = [] ∧
      ¬(exitCode (runMain wCrash fsC) = 1 ↔
        (wCrash.buildOk = false ∨
          ∃ p, (p, Outcome.failure) ∈ runOutcomes (runMain wCrash fsC))) := by
  have h1 : runMain wCrash fsC = RunResult.crashed (initState fsC) := rfl
  refine ⟨by rw [h1]; rfl, rfl, by rw [h1]; rfl, ?_⟩
  intro hiff
  rcases hiff.mp (by rw [h1]; rfl) with hb | ⟨p, hp⟩
  · simp [wCrash] at hb
  · rw [h1] at hp
    simp [runOutcomes, initState] at hp

/-- A per-file process that launches always yields a recorded state. -/
theorem processFile_launch_ok (w : World) (st : RunState) (td : FPath)
    (hl : w.launchOk td = true) : ∃ st2, processFile w st td = some st2 := by
  rcases h : processFile w st td with _ | st2
  · unfold processFile runNode at h
    rcases hsrc : fsGet st.fs td with _ | src
    · simp [hl, hsrc] at h
    · rcases hp : w.parse src with e | ast
      · simp [hl, hsrc, hp] at h
      · by_cases hw : w.writeOk (derive td)
        · simp [hl, hsrc, hp, hw] at h
        · simp [hl, hsrc, hp, hw] at h
  · exact ⟨st2, rfl⟩

/-- Claim C7 (amended): a launch failure is not caught anywhere in the
script: the run aborts at the first file whose interpreter fails to
launch, recording no outcome at all for that file and processing no
later file, and the interpreter exits 1 via the uncaught exception.
Only a process that does launch and exits non-zero is recorded as a
Failure, with processing continuing. -/
theorem regen_launch_failure_behavior (w : World) (fs : FS)
    (done : List FPath) (p : FPath) (rest : List FPath)
    (hb : w.buildOk = true)
    (hd : discover fs = done ++ p :: rest)
    (hdone : ∀ q ∈ done, w.launchOk q = true)
    (hp : w.launchOk p = false) :
    (∃ st, runMain w fs = RunResult.crashed st ∧
      st.outcomes = done.map (fun q => (q, fileOutcome w fs q)) ∧
      exitCode (runMain w fs) = 1) ∧
    (∀ (st : RunState) (td : FPath), w.launchOk td = true →
      ∃ st2 o, processFile w st td = some st2 ∧
        st2.outcomes = st.outcomes ++ [(td, o)]) := by
  constructor
  · have hmem : ∀ q ∈ done, matchesTd q = true := by
      intro q hq
      have hq2 : q ∈ discover fs := by
        rw [hd]
        exact List.mem_append_left _ hq
      exact matchesTd_of_mem_discover hq2
    obtain ⟨st1, hrun1, ho1, _, _, _, _, _⟩ :=
      processFiles_ok w fs done (initState fs) hdone hmem (fun q _ => rfl)
    have hpf : processFile w st1 p = none := processFile_launch_fail w st1 p hp
    have hloop : processFiles w (discover fs) (initState fs) = Except.error st1 := by
      rw [hd, processFiles_append]
      simp only [hrun1, processFiles, hpf]
    refine ⟨st1, ?_, by simpa [initState] using ho1, ?_⟩
    · unfold runMain
      rw [hb, if_pos rfl]
      simp only [hloop]
    · unfold runMain
      rw [hb, if_pos rfl]
      simp only [hloop, exitCode]
  · intro st td hltd
    obtain ⟨st2, h2⟩ := processFile_launch_ok w st td hltd
    obtain ⟨o, ho2⟩ := processFile_shape w st td h2
    exact ⟨st2, o, h2, ho2⟩

/-- Witness for C7 (amended) on a concrete two-file tree whose second
file's launch fails: the first file's outcome is recorded, then the run
crashes with exit status 1. -/
theorem regen_launch_failure_behavior_witness :
    (wHalf.buildOk = true) ∧ (discover fsAB2 = [pA] ++ pB :: []) ∧
      (∀ q ∈ [pA], wHalf.launchOk q = true) ∧ (wHalf.launchOk pB = false) ∧
      (∃ st, runMain wHalf fsAB2 = RunResult.crashed st ∧
        st.outcomes = [pA].map (fun q => (q, fileOutcome wHalf fsAB2 q)) ∧
        exitCode (runMain wHalf fsAB2) = 1) :=
  ⟨rfl, by decide, by decide, by decide,
    (regen_launch_failure_behavior wHalf fsAB2 [pA] pB [] rfl (by decide)
      (by decide) (by decide)).1⟩

/-- Counterexample to C7 as stated: with the build succeeding and one
discovered file whose launch fails, no Failure outcome is recorded for
that file and the run never completes: the uncaught exception aborts it. -/
theorem regen_launch_failure_counterexample :
    wCrash.buildOk = true ∧ pD ∈ discover fsD ∧ wCrash.launchOk pD = false ∧
      runMain wCrash fsD = RunResult.crashed (initState fsD) ∧
      ¬((pD, Outcome.failure) ∈ runOutcomes (runMain wCrash fsD)) ∧
      ∀ st, runMain wCrash fsD ≠ RunResult.completed st := by
  have h1 : runMain wCrash fsD = RunResult.crashed (initState fsD) := rfl
  refine ⟨rfl, by decide, rfl, h1, ?_, ?_⟩
  · rw [h1]
    simp [runOutcomes, initState]
  · intro st h2
    rw [h1] at h2
    exact RunResult.noConfusion h2

/-- In an outcome list built over files not containing `p`, no entry has
first component `p`. -/
theorem filter_fst_map_not_mem {α β : Type} [DecidableEq α] (g : α → β)
    (r : List α) (p : α) (hp : p ∉ r) :
    (r.map (fun q => (q, g q))).filter (fun po => decide (po.1 = p)) = [] := by
  induction r with
  | nil => rfl
  | cons a s ih =>
    have hne : ¬(a = p) := fun h => hp (h ▸ List.mem_cons_self a s)
    have hps : p ∉ s := fun h => hp (List.mem_cons_of_mem _ h)
    simp only [List.map_cons, List.filter_cons, decide_eq_true_eq]
    rw [if_neg hne]
    exact ih hps

/-- In an outcome list built over a duplicate-free file list, each file
owns exactly one entry. -/
theorem filter_fst_map_length {α β : Type} [DecidableEq α] (g : α → β)
    (l : List α) (hn : l.Nodup) (p : α) (hp : p ∈ l) :
    ((l.map (fun q => (q, g q))).filter (fun po => decide (po.1 = p))).length = 1 := by
  induction l with
  | nil => cases hp
  | cons a r ih =>
    obtain ⟨hna, hnr⟩ := List.nodup_cons.mp hn
    rcases List.mem_cons.mp hp with rfl | hp2
    · simp only [List.map_cons, List.filter_cons, decide_eq_true_eq]
      rw [if_pos trivial, filter_fst_map_not_mem g r p hna]
      rfl
    · have hne : ¬(a = p) := fun h => hna (h ▸ hp2)
      simp only [List.map_cons, List.filter_cons, decide_eq_true_eq]
      rw [if_neg hne]
      exact ih hnr hp2

/-- Claim C5 (amended): in runs whose build succeeds and whose per-file
interpreter launches all succeed, every discovered input file yields
exactly one ParseOutcome, and the number of discovered files equals the
Success count plus the Failure count; in particular an empty discovery
is not an error: zero successes, zero failures, exit code 0.  (When a
launch raises, the run aborts and the crashing file — and all later
files — yield no outcome; see the counterexample.) -/
theorem regen_outcome_counting (w : World) (fs : FS)
    (hb : w.buildOk = true)
    (hl : ∀ p ∈ discover fs, w.launchOk p = true)
    (hn : (fsKeys fs).Nodup) :
    ∃ st, runMain w fs = RunResult.completed st ∧
      st.outcomes.map Prod.fst = discover fs ∧
      (∀ p ∈ discover fs,
        (st.outcomes.filter (fun po => decide (po.1 = p))).length = 1) ∧
      st.successCount + st.failCount = (discover fs).length ∧
      (discover fs = [] →
        st.successCount = 0 ∧ st.failCount = 0 ∧ exitCode (runMain w fs) = 0) := by
  obtain ⟨st, hrun, ho, _, hs, hf, _, _⟩ := runMain_completed w fs hb hl
  refine ⟨st, hrun, ?_, ?_, ?_, ?_⟩
  · rw [ho, List.map_map]
    have : (Prod.fst ∘ fun p => (p, fileOutcome w fs p)) = id := rfl
    rw [this, List.map_id]
  · intro p hp
    rw [ho]
    exact filter_fst_map_length _ _ (discover_nodup hn) p hp
  · rw [hs, hf, numSucc_add_numFail]
  · intro hempty
    have h0 : numSucc w fs (discover fs) = 0 := by rw [hempty]; rfl
    have h1 : numFail w fs (discover fs) = 0 := by rw [hempty]; rfl
    refine ⟨by rw [hs, h0], by rw [hf, h1], ?_⟩
    rw [hrun]
    simp only [exitCode, hf, h1]
    rfl

/-- Witness for C5 (amended) on a concrete two-file tree. -/
theorem regen_outcome_counting_witness :
    ((fsKeys fsAB).Nodup) ∧
    (∃ st, runMain wNom fsAB = RunResult.completed st ∧
      st.outcomes.map Prod.fst = discover fsAB ∧
      (∀ p ∈ discover fsAB,
        (st.outcomes.filter (fun po => decide (po.1 = p))).length = 1) ∧
      st.successCount + st.failCount = (discover fsAB).length ∧
      (discover fsAB = [] →
        st.successCount = 0 ∧ st.failCount = 0 ∧ exitCode (runMain wNom fsAB) = 0)) :=
  ⟨by decide, regen_outcome_counting wNom fsAB rfl (by decide) (by decide)⟩

/-- Counterexample to C5 as stated: a discovered file of a crashed run
yields no ParseOutcome at all. -/
theorem regen_outcome_counting_counterexample :
    pE ∈ discover fsE ∧
      ((runOutcomes (runMain wCrash fsE)).filter
        (fun po => decide (po.1 = pE))).length = 0 := by
  have h1 : runMain wCrash fsE = RunResult.crashed (initState fsE) := rfl
  refine ⟨by decide, ?_⟩
  rw [h1]
  rfl

/-- Claim C2: failure isolation.  If the build succeeds, every per-file
process launches, every artifact write succeeds, and exactly one
discovered file is malformed (its content makes the parser error) while
every other discovered file parses, then the run completes: the
malformed file is recorded as the only Failure, every other file is
recorded as a Success with its artifact written, all discovered files
are processed, and the exit code is 1.  Only a build failure halts the
run before processing. -/
theorem regen_failure_isolation (w : World) (fs : FS) (m : FPath)
    (hb : w.buildOk = true)
    (hl : ∀ p ∈ discover fs, w.launchOk p = true)
    (hm : m ∈ discover fs)
    (hwr : ∀ p ∈ discover fs, w.writeOk (derive p) = true)
    (hbad : ∃ src e, fsGet fs m = some src ∧ w.parse src = Except.error e)
    (hgood : ∀ p ∈ discover fs, p ≠ m →
      ∃ src ast, fsGet fs p = some src ∧ w.parse src = Except.ok ast) :
    ∃ st, runMain w fs = RunResult.completed st ∧
      st.outcomes = (discover fs).map
        (fun p => (p, if p = m then Outcome.failure else Outcome.success)) ∧
      (∀ p ∈ discover fs, p ≠ m → ∃ c, (derive p, c) ∈ st.writes) ∧
      st.outcomes.length = (discover fs).length ∧
      exitCode (runMain w fs) = 1 := by
  obtain ⟨st, hrun, ho, hw2, _, hf, _, _⟩ := runMain_completed w fs hb hl
  have hfom : fileOutcome w fs m = Outcome.failure := by
    obtain ⟨src, e, h1, h2⟩ := hbad
    simp [fileOutcome, h1, h2]
  have hfop : ∀ p ∈ discover fs, p ≠ m → fileOutcome w fs p = Outcome.success := by
    intro p hpd hne
    obtain ⟨src, ast, h1, h2⟩ := hgood p hpd hne
    simp [fileOutcome, h1, h2, hwr p hpd]
  refine ⟨st, hrun, ?_, ?_, ?_, ?_⟩
  · rw [ho]
    apply List.map_congr_left
    intro p hpd
    by_cases hpe : p = m
    · subst hpe
      simp [hfom]
    · simp only [hpe, if_false]
      rw [hfop p hpd hpe]
  · intro p hpd hne
    obtain ⟨src, ast, h1, h2⟩ := hgood p hpd hne
    refine ⟨astContent ast, ?_⟩
    rw [hw2]
    exact List.mem_filterMap.mpr
      ⟨p, hpd, by simp [fileWrite, h1, h2, hwr p hpd]⟩
  · rw [ho, List.length_map]
  · rw [hrun]
    simp only [exitCode, hf]
    rw [if_pos ((numFail_pos_iff w fs _).mpr ⟨m, hm, hfom⟩)]

/-- Witness for C2 on the concrete tree with `a.td` well-formed and
`b.td` malformed: one Failure, one Success with artifact, exit code 1. -/
theorem regen_failure_isolation_witness :
    (pB ∈ discover fsAB) ∧
    (∃ st, runMain wNom fsAB = RunResult.completed st ∧
      st.outcomes = (discover fsAB).map
        (fun p => (p, if p = pB then Outcome.failure else Outcome.success)) ∧
      (∀ p ∈ discover fsAB, p ≠ pB → ∃ c, (derive p, c) ∈ st.writes) ∧
      st.outcomes.length = (discover fsAB).length ∧
      exitCode (runMain wNom fsAB) = 1) := by
  refine ⟨by decide, regen_failure_isolation wNom fsAB pB rfl (by decide)
    (by decide) (by decide) ⟨cSrcBad, cMsg, rfl, rfl⟩ ?_⟩
  intro p hp hne
  have hd : discover fsAB = [pA, pB] := by decide
  rw [hd] at hp
  rcases List.mem_cons.mp hp with rfl | hp2
  · exact ⟨cSrcOk, Json.null, rfl, rfl⟩
  · rcases List.mem_cons.mp hp2 with rfl | hp3
    · exact absurd rfl hne
    · cases hp3

/-- Case analysis of one recorded iteration: either the file is recorded
as a Success and exactly its artifact was written, or it is recorded as
a Failure and the filesystem and write log are untouched. -/
theorem processFile_cases (w : World) (st : RunState) (td : FPath)
    (st' : RunState) (h : processFile w st td = some st') :
    (∃ c, st'.outcomes = st.outcomes ++ [(td, Outcome.success)] ∧
      st'.writes = st.writes ++ [(derive td, c)] ∧
      st'.fs = fsSet st.fs (derive td) c) ∨
    (st'.outcomes = st.outcomes ++ [(td, Outcome.failure)] ∧
      st'.writes = st.writes ∧ st'.fs = st.fs) := by
  unfold processFile runNode at h
  by_cases hl : w.launchOk td
  · rcases hsrc : fsGet st.fs td with _ | src
    · simp [hl, hsrc] at h
      right
      rw [← h]
      exact ⟨rfl, by simp, rfl⟩
    · rcases hp : w.parse src with e | ast
      · simp [hl, hsrc, hp] at h
        right
        rw [← h]
        exact ⟨rfl, by simp, rfl⟩
      · by_cases hw : w.writeOk (derive td)
        · simp [hl, hsrc, hp, hw] at h
          left
          rw [← h]
          exact ⟨astContent ast, rfl, by simp, rfl⟩
        · simp [hl, hsrc, hp, hw] at h
          right
          rw [← h]
          exact ⟨rfl, by simp, rfl⟩
  · simp [hl] at h

/-- Preservation of the per-run invariant: after any recorded iteration,
every file so far recorded as a Success has its artifact present. -/
theorem successWritten_step (w : World) (st st' : RunState) (td : FPath)
    (h : processFile w st td = some st')
    (hinv : ∀ p, (p, Outcome.success) ∈ st.outcomes →
      ∃ c, fsGet st.fs (derive p) = some c) :
    ∀ p, (p, Outcome.success) ∈ st'.outcomes →
      ∃ c, fsGet st'.fs (derive p) = some c := by
  rcases processFile_cases w st td st' h with ⟨c, ho, _, hfs⟩ | ⟨ho, _, hfs⟩
  · intro p hp
    rw [ho] at hp
    rcases List.mem_append.mp hp with hp1 | hp2
    · obtain ⟨c2, hc2⟩ := hinv p hp1
      rw [hfs]
      by_cases hde : derive p = derive td
      · rw [hde, fsGet_fsSet_self]
        exact ⟨c, rfl⟩
      · rw [fsGet_fsSet_ne _ _ hde]
        exact ⟨c2, hc2⟩
    · simp only [List.mem_singleton, Prod.mk.injEq] at hp2
      obtain ⟨rfl, _⟩ := hp2
      rw [hfs, fsGet_fsSet_self]
      exact ⟨c, rfl⟩
  · intro p hp
    rw [ho] at hp
    rcases List.mem_append.mp hp with hp1 | hp2
    · rw [hfs]
      exact hinv p hp1
    · simp only [List.mem_singleton, Prod.mk.injEq] at hp2
      exact absurd hp2.2 (by decide)

/-- The invariant holds through the whole loop, completed or crashed. -/
theorem successWritten_processFiles (w : World) :
    ∀ (files : List FPath) (st st' : RunState),
    (processFiles w files st = Except.ok st' ∨
      processFiles w files st = Except.error st') →
    (∀ p, (p, Outcome.success) ∈ st.outcomes →
      ∃ c, fsGet st.fs (derive p) = some c) →
    ∀ p, (p, Outcome.success) ∈ st'.outcomes →
      ∃ c, fsGet st'.fs (derive p) = some c := by
  intro files
  induction files with
  | nil =>
    intro st st' h hinv
    rcases h with h | h
    · cases h
      exact hinv
    · exact Except.noConfusion h
  | cons td rest ih =>
    intro st st' h hinv
    rcases hpf : processFile w st td with _ | st1
    · rcases h with h | h
      · simp only [processFiles, hpf] at h
        exact Except.noConfusion h
      · simp only [processFiles, hpf] at h
        cases h
        exact hinv
    · have hinv1 := successWritten_step w st st1 td hpf hinv
      rcases h with h | h
      · simp only [processFiles, hpf] at h
        exact ih st1 st' (Or.inl h) hinv1
      · simp only [processFiles, hpf] at h
        exact ih st1 st' (Or.inr h) hinv1

/-- Claim C4: an artifact write happens for a file exactly when that
file's outcome is Success.  Per iteration: a Success appends exactly one
write, to the file's derived artifact path, and updates the tree there;
a Failure (parse error, read error, or write error) leaves the tree and
the write log untouched.  Run-level: in any run, completed or crashed,
every file recorded as a Success has an artifact present at its derived
path in the final tree. -/
theorem regen_artifact_iff_success :
    (∀ (w : World) (st : RunState) (td : FPath) (st' : RunState),
      processFile w st td = some st' →
      ((∃ c, st'.outcomes = st.outcomes ++ [(td, Outcome.success)] ∧
        st'.writes = st.writes ++ [(derive td, c)] ∧
        st'.fs = fsSet st.fs (derive td) c) ∨
       (st'.outcomes = st.outcomes ++ [(td, Outcome.failure)] ∧
        st'.writes = st.writes ∧ st'.fs = st.fs))) ∧
    (∀ (w : World) (fs : FS) (st : RunState),
      (runMain w fs = RunResult.completed st ∨
        runMain w fs = RunResult.crashed st) →
      ∀ p, (p, Outcome.success) ∈ st.outcomes →
        ∃ c, fsGet st.fs (derive p) = some c) := by
  constructor
  · exact processFile_cases
  · intro w fs st h p hp
    have hinv0 : ∀ q, (q, Outcome.success) ∈ (initState fs).outcomes →
        ∃ c, fsGet (initState fs).fs (derive q) = some c := by
      intro q hq
      exact absurd hq (List.not_mem_nil _)
    by_cases hb : w.buildOk
    · rcases hrun : processFiles w (discover fs) (initState fs) with st1 | st1
      · rcases h with h | h
        · unfold runMain at h
          rw [if_pos hb] at h
          simp only [hrun] at h
          exact RunResult.noConfusion h
        · unfold runMain at h
          rw [if_pos hb] at h
          simp only [hrun] at h
          cases h
          exact successWritten_processFiles w (discover fs) (initState fs) _
            (Or.inr hrun) hinv0 p hp
      · rcases h with h | h
        · unfold runMain at h
          rw [if_pos hb] at h
          simp only [hrun] at h
          cases h
          exact successWritten_processFiles w (discover fs) (initState fs) _
            (Or.inl hrun) hinv0 p hp
        · unfold runMain at h
          rw [if_pos hb] at h
          simp only [hrun] at h
          exact RunResult.noConfusion h
    · have hbf : w.buildOk = false := by
        revert hb
        cases w.buildOk <;> simp
      rcases h with h | h <;> rw [runMain_buildFailed fs hbf] at h <;>
        exact RunResult.noConfusion h

/-- Witness for C4 on one concrete successful iteration: processing
`a.td` appends a Success outcome and writes exactly its artifact. -/
theorem regen_artifact_iff_success_witness :
    ∃ st', processFile wNom (initState fsA) pA = some st' ∧
      ((∃ c, st'.outcomes = (initState fsA).outcomes ++ [(pA, Outcome.success)] ∧
        st'.writes = (initState fsA).writes ++ [(derive pA, c)] ∧
        st'.fs = fsSet (initState fsA).fs (derive pA) c) ∨
       (st'.outcomes = (initState fsA).outcomes ++ [(pA, Outcome.failure)] ∧
        st'.writes = (initState fsA).writes ∧ st'.fs = (initState fsA).fs)) :=
  ⟨_, rfl, regen_artifact_iff_success.1 wNom (initState fsA) pA _ rfl⟩

/-- Claim C6: on every Success the bytes written are the pretty-printed
serialization of the AST — `JSON.stringify(ast, null, 2)`, with fields
in the object's own (stable) order and two-space indentation — followed
by exactly one trailing newline: the written content ends in a newline
whose preceding character is not a newline, and any nonempty object
serializes with internal line breaks (not minified). -/
theorem regen_serialization_format (w : World) (st : RunState) (td : FPath)
    (src : List Char) (ast : Json)
    (hl : w.launchOk td = true) (hsrc : fsGet st.fs td = some src)
    (hparse : w.parse src = Except.ok ast) (hw : w.writeOk (derive td) = true) :
    ∃ st', processFile w st td = some st' ∧
      st'.writes = st.writes ++ [(derive td, jsonStr 0 ast ++ ['\n'])] ∧
      st'.outcomes = st.outcomes ++ [(td, Outcome.success)] ∧
      (∃ cs c, jsonStr 0 ast ++ ['\n'] = cs ++ [c, '\n'] ∧ c ≠ '\n') ∧
      (∀ k v t, '\n' ∈ jsonStr 0 (Json.jobj (JsonObj.cons k v t))) := by
  have h : processFile w st td = some
      { fs := fsSet st.fs (derive td) (astContent ast),
        outcomes := st.outcomes ++ [(td, Outcome.success)],
        writes := st.writes ++ [(derive td, astContent ast)],
        successCount := st.successCount + 1, failCount := st.failCount } := by
    unfold processFile runNode
    simp [hl, hsrc, hparse, hw, Option.toList]
  refine ⟨_, h, rfl, rfl, ?_, fun k v t => jsonStr_obj_has_newline 0 k v t⟩
  simpa [astContent] using astContent_exactly_one_nl ast

/-- Witness for C6 on a concrete parse of `a.td` into the JSON `null`. -/
theorem regen_serialization_format_witness :
    ∃ st', processFile wNom (initState fsA) pA = some st' ∧
      st'.writes = (initState fsA).writes ++
        [(derive pA, jsonStr 0 Json.null ++ ['\n'])] ∧
      st'.outcomes = (initState fsA).outcomes ++ [(pA, Outcome.success)] ∧
      (∃ cs c, jsonStr 0 Json.null ++ ['\n'] = cs ++ [c, '\n'] ∧ c ≠ '\n') ∧
      (∀ k v t, '\n' ∈ jsonStr 0 (Json.jobj (JsonObj.cons k v t))) :=
  regen_serialization_format wNom (initState fsA) pA cSrcOk Json.null
    rfl rfl rfl rfl

/-- Folding a run's writes into the tree never changes its `*.td`
entries or their order: every write targets a derived artifact path. -/
theorem discover_foldl_stable (w : World) (fs0 : FS) :
    ∀ (files : List FPath) (fs : FS),
    (fsKeys (files.foldl (fun fs2 p => applyW fs2 (fileWrite w fs0 p)) fs)).filter
        matchesTd
      = (fsKeys fs).filter matchesTd := by
  intro files
  induction files with
  | nil => intro fs; rfl
  | cons p r ih =>
    intro fs
    simp only [List.foldl_cons]
    rw [ih]
    rcases hfw : fileWrite w fs0 p with _ | ⟨q, c⟩
    · rfl
    · have hq : q = derive p := fileWrite_target w fs0 p hfw
      show (fsKeys (fsSet fs q c)).filter matchesTd = _
      rw [hq]
      exact fsKeys_filter_fsSet fs (derive p) c (matchesTd_derive p)

/-- After a completed all-launches run, a second discovery finds exactly
the same files in the same order. -/
theorem discover_after_run (w : World) (fs : FS) {st : RunState}
    (hfs : st.fs = (discover fs).foldl
      (fun fs2 p => applyW fs2 (fileWrite w fs p)) fs) :
    discover st.fs = discover fs := by
  unfold discover
  rw [hfs, discover_foldl_stable]

/-- A file's outcome depends only on its content. -/
theorem fileOutcome_congr (w : World) {fs1 fs0 : FS} (p : FPath)
    (h : fsGet fs1 p = fsGet fs0 p) :
    fileOutcome w fs1 p = fileOutcome w fs0 p := by
  unfold fileOutcome
  rw [h]

/-- A file's write depends only on its content. -/
theorem fileWrite_congr (w : World) {fs1 fs0 : FS} (p : FPath)
    (h : fsGet fs1 p = fsGet fs0 p) :
    fileWrite w fs1 p = fileWrite w fs0 p := by
  unfold fileWrite
  rw [h]

/-- Claim C9: idempotence.  With a deterministic parser (a function of
the source text) that succeeds on every discovered file, the build
succeeding, all launches and writes succeeding, running the tool and
then running it again over the resulting tree discovers the same files,
records the same outcomes (all Success), and performs byte-for-byte the
same artifact writes: the second run overwrites each artifact with
identical content. -/
theorem regen_idempotent (w : World) (fs : FS)
    (hb : w.buildOk = true)
    (hl : ∀ p, matchesTd p = true → w.launchOk p = true)
    (hwr : ∀ p ∈ discover fs, w.writeOk (derive p) = true)
    (hparse : ∀ p ∈ discover fs,
      ∃ src ast, fsGet fs p = some src ∧ w.parse src = Except.ok ast) :
    ∃ st1 st2, runMain w fs = RunResult.completed st1 ∧
      runMain w st1.fs = RunResult.completed st2 ∧
      discover st1.fs = discover fs ∧
      st2.writes = st1.writes ∧
      st2.outcomes = st1.outcomes ∧
      (∀ po ∈ st1.outcomes, po.2 = Outcome.success) := by
  have hl1 : ∀ p ∈ discover fs, w.launchOk p = true :=
    fun p hp => hl p (matchesTd_of_mem_discover hp)
  obtain ⟨st1, hrun1, ho1, hw1, _, _, hfs1, hag1⟩ := runMain_completed w fs hb hl1
  have hd2 : discover st1.fs = discover fs := discover_after_run w fs hfs1
  have hsame : ∀ p ∈ discover fs, fsGet st1.fs p = fsGet fs p :=
    fun p hp => hag1 p (matchesTd_of_mem_discover hp)
  have hl2 : ∀ p ∈ discover st1.fs, w.launchOk p = true := by
    rw [hd2]
    exact hl1
  obtain ⟨st2, hrun2, ho2, hw2, _, _, _, _⟩ := runMain_completed w st1.fs hb hl2
  refine ⟨st1, st2, hrun1, hrun2, hd2, ?_, ?_, ?_⟩
  · rw [hw2, hw1, hd2]
    exact List.filterMap_congr (fun p hp => fileWrite_congr w p (hsame p hp))
  · rw [ho2, ho1, hd2]
    exact List.map_congr_left
      (fun p hp => by rw [fileOutcome_congr w p (hsame p hp)])
  · intro po hpo
    rw [ho1] at hpo
    obtain ⟨q, hq, he⟩ := List.mem_map.mp hpo
    obtain ⟨src, ast, h1, h2⟩ := hparse q hq
    rw [← he]
    simp [fileOutcome, h1, h2, hwr q hq]

/-- Witness for C9 on the concrete one-file tree `a.td`. -/
theorem regen_idempotent_witness :
    ∃ st1 st2, runMain wNom fsA = RunResult.completed st1 ∧
      runMain wNom st1.fs = RunResult.completed st2 ∧
      discover st1.fs = discover fsA ∧
      st2.writes = st1.writes ∧
      st2.outcomes = st1.outcomes ∧
      (∀ po ∈ st1.outcomes, po.2 = Outcome.success) := by
  refine regen_idempotent wNom fsA rfl (fun p _ => rfl) (by decide) ?_
  intro p hp
  have hd : discover fsA = [pA] := by decide
  rw [hd] at hp
  rcases List.mem_cons.mp hp with rfl | hp2
  · exact ⟨cSrcOk, Json.null, rfl, rfl⟩
  · cases hp2
